import Mathlib

/-!
# CritPt leaderboard page: formatting helpers, chart adapter and data table

A shallow embedding of the pure part of `src/main.jsx`:
`parsePercent`, `buildChartData`, `fmtCorrect`, the `rows` table, the palette
`colors`, the x-axis tick formatter and the icon glyph expression.

JavaScript Numbers are IEEE-754 binary64 values.  They are modelled exactly, with
natural numbers and integers only: a finite Number is `±m·2^e`, and every
arithmetic operation is the exact rational result rounded to the nearest
representable value, ties to the even significand.

A text handed to `parsePercent`, a model name or an icon key is a `String`:
`replace` with the class `[^0-9.\-]` drops both halves of a surrogate pair, as
the model drops the character, and `===` on texts is equality.  Where the code
measures and cuts a text (`length`, `slice` in the tick formatter) it works on
UTF-16 code units, and there the text is its list of code units, `toUTF16`
giving the code units of a `String`.  An array is a `List`, `undefined` is
`none`.  None of the functions embedded here contains a `throw`, and none of the
operations they use throws on texts, arrays and Numbers: they are total
functions.
-/

namespace CritPt

/-! ## JavaScript Numbers -/

/-- A JavaScript Number.  `fin neg m e` is the finite value `(-1)^neg · m · 2^e`,
kept in the canonical binary64 form: `m < 2^53`, `-1074 ≤ e ≤ 971`, and
`e = -1074` whenever `m < 2^52` (subnormals and the two zeros). -/
inductive JSNumber where
  | nan : JSNumber
  | inf (neg : Bool) : JSNumber
  | fin (neg : Bool) (m : Nat) (e : Int) : JSNumber
  deriving DecidableEq, Repr

namespace JSNumber

/-- Positive zero, `+0`. -/
def zero : JSNumber := fin false 0 (-1074)

/-- The exact rational value of a finite Number (`none` for NaN and the infinities). -/
def toRat : JSNumber → Option ℚ
  | nan => none
  | inf _ => none
  | fin neg m e => some ((if neg then -1 else 1) * (m : ℚ) * (2 : ℚ) ^ e)

end JSNumber

open JSNumber

/-- Floor of the binary logarithm of `n` within `fuel` halvings. -/
def log2Fuel : Nat → Nat → Nat
  | 0, _ => 0
  | fuel + 1, n => if n < 2 then 0 else log2Fuel fuel (n / 2) + 1

/-- Floor of the binary logarithm of `n` (`0` for `n = 0`). -/
def log2 (n : Nat) : Nat := log2Fuel n n

/-- Floor of the binary logarithm of `p / q`, for `p, q > 0`. -/
def floorLog2 (p q : Nat) : Int :=
  let k : Int := (log2 p : Int) - (log2 q : Int)
  if q * 2 ^ k.toNat ≤ p * 2 ^ (-k).toNat then k else k - 1

/-- The Number value for the rational `(-1)^neg · p / q` (`q > 0`): the binary64
value nearest to it, ties to the even significand, values of magnitude at least
`2^1024 - 2^970` going to the infinity of the same sign. -/
def roundDouble (neg : Bool) (p q : Nat) : JSNumber :=
  if p = 0 then fin neg 0 (-1074)
  else
    let e : Int := max (floorLog2 p q - 52) (-1074)
    let n : Nat := p * 2 ^ (-e).toNat
    let d : Nat := q * 2 ^ e.toNat
    let m : Nat := n / d
    let r : Nat := n % d
    let m1 : Nat := if d < 2 * r ∨ (2 * r = d ∧ m % 2 = 1) then m + 1 else m
    let me : Nat × Int := if m1 = 2 ^ 53 then (2 ^ 52, e + 1) else (m1, e)
    if 971 < me.2 then inf neg else fin neg me.1 me.2

/-- The Number value for the natural number `n` (exact when `n ≤ 2^53`). -/
def JSNumber.ofNat (n : Nat) : JSNumber := roundDouble false n 1

/-- The Number value for the integer `z`; an integer zero is `+0`. -/
def JSNumber.ofInt (z : Int) : JSNumber := roundDouble (decide (z < 0)) z.natAbs 1

/-- The Number value for the rational `q`: `q` rounded to the nearest binary64
value (a rational zero is `+0`). -/
def JSNumber.ofRat (q : ℚ) : JSNumber := roundDouble (decide (q < 0)) q.num.natAbs q.den

/-- JavaScript `x / y` on Numbers (IEEE-754 division). -/
def JSNumber.div : JSNumber → JSNumber → JSNumber
  | nan, _ => nan
  | _, nan => nan
  | inf _, inf _ => nan
  | inf s, fin t _ _ => inf (xor s t)
  | fin s _ _, inf t => fin (xor s t) 0 (-1074)
  | fin s m e, fin t m2 e2 =>
    if m2 = 0 then (if m = 0 then nan else inf (xor s t))
    else roundDouble (xor s t) (m * 2 ^ (e - e2).toNat) (m2 * 2 ^ (e2 - e).toNat)

/-- JavaScript `x * y` on Numbers (IEEE-754 multiplication). -/
def JSNumber.mul : JSNumber → JSNumber → JSNumber
  | nan, _ => nan
  | _, nan => nan
  | inf s, inf t => inf (xor s t)
  | inf s, fin t m _ => if m = 0 then nan else inf (xor s t)
  | fin s m _, inf t => if m = 0 then nan else inf (xor s t)
  | fin s m e, fin t m2 e2 =>
    roundDouble (xor s t) (m * m2 * 2 ^ (e + e2).toNat) (2 ^ (-(e + e2)).toNat)

/-- JavaScript `Math.round`: the integral Number closest to `x`, a tie going to
the one closer to `+∞`; NaN, the infinities and the zeros are returned unchanged,
and a negative `x ≥ -0.5` gives `-0`. -/
def mathRound : JSNumber → JSNumber
  | nan => nan
  | inf s => inf s
  | fin s m e =>
    if 0 ≤ e ∨ m = 0 then fin s m e
    else
      let d : Int := 2 ^ (-e).toNat
      let x2 : Int := if s then -(2 * (m : Int)) else 2 * (m : Int)
      let n : Int := (x2 + d) / (2 * d)
      if n = 0 then fin s 0 (-1074) else JSNumber.ofInt n

/-- The decimal rendering of a natural number, as a list of characters. -/
def natDigits (n : Nat) : List Char := Nat.toDigits 10 n

/-- JavaScript `Number::toString` in radix 10, as used by a template literal, on
NaN, the infinities, the zeros and the integers of magnitude below `2^53`.  Any
other value is rendered by ECMAScript through a shortest-digits search that is
not modelled: the result is `none` there. -/
def numberToString : JSNumber → Option String
  | nan => some "NaN"
  | inf false => some "Infinity"
  | inf true => some "-Infinity"
  | fin s m e =>
    if m = 0 then some "0"
    else if (m * 2 ^ e.toNat) % 2 ^ (-e).toNat = 0 ∧ m * 2 ^ e.toNat / 2 ^ (-e).toNat < 2 ^ 53 then
      some (String.mk ((if s then ['-'] else []) ++ natDigits (m * 2 ^ e.toNat / 2 ^ (-e).toNat)))
    else none

/-! ## Utilities -/

/-- The characters outside the class `[^0-9.\-]`: a digit, a dot or a minus. -/
def keep (c : Char) : Bool := c.isDigit || c == '.' || c == '-'

/-- The text `String(p).replace(/[^0-9.\-]+/g, "")`: every run of characters
that are not a digit, dot or minus is removed. -/
def strip (p : String) : String := String.mk (p.data.filter keep)

/-- The value of a decimal digit. -/
def digitVal (c : Char) : Nat := c.toNat - 48

/-- The mathematical value of a sequence of decimal digits. -/
def digitsVal (ds : List Char) : Nat := ds.foldl (fun acc c => 10 * acc + digitVal c) 0

/-- ECMAScript `StrUnsignedDecimalLiteral` without exponent part:
`digits`, `digits . digits?` or `. digits`.  The result `(m, d)` stands for the
mathematical value `m / 10^d`; `none` when the text is not such a literal. -/
def parseUnsigned (cs : List Char) : Option (Nat × Nat) :=
  let ip := cs.takeWhile Char.isDigit
  match cs.dropWhile Char.isDigit with
  | [] => if ip = [] then none else some (digitsVal ip, 0)
  | c :: fp =>
    if c = '.' ∧ fp.all Char.isDigit ∧ (ip ≠ [] ∨ fp ≠ []) then
      some (digitsVal (ip ++ fp), fp.length)
    else none

/-- ECMAScript `StrDecimalLiteral` over the characters that survive `strip`:
an optional minus sign followed by an unsigned literal.  The result
`(neg, m, d)` stands for `(-1)^neg · m / 10^d`. -/
def parseSigned (cs : List Char) : Option (Bool × Nat × Nat) :=
  match cs with
  | '-' :: rest => (parseUnsigned rest).map fun md => (true, md)
  | _ => (parseUnsigned cs).map fun md => (false, md)

/-- JavaScript `Number(s)` for a text `s` made of digits, dots and minus signs
(what `strip` leaves; white space, `+`, exponents, `Infinity` and radix prefixes
cannot occur): the empty text is `+0`, a decimal literal is the Number value for
its mathematical value, anything else is NaN.  The literal is rounded correctly
at any length, as the engines do (ECMAScript allows an approximation after the
20th significant digit). -/
def stringToNumber (cs : List Char) : JSNumber :=
  if cs = [] then JSNumber.zero
  else match parseSigned cs with
    | none => nan
    | some (neg, m, d) => roundDouble neg m (10 ^ d)

/-- The function `parsePercent(p)`: `Number(String(p).replace(/[^0-9.\-]+/g, ""))`. -/
def parsePercent (p : String) : JSNumber := stringToNumber (strip p).data

/-- A record as `buildChartData` reads it: the fields `model` and `accuracy`. -/
structure Record where
  model : String
  accuracy : String
  deriving DecidableEq, Repr

/-- An entry of the chart data.  `fill` is `none` when the palette lookup gives
`undefined`. -/
structure ChartPoint where
  model : String
  accuracy : JSNumber
  fill : Option String
  deriving DecidableEq, Repr

/-- JavaScript `i % n` for array indices `i`, `n`: `none` stands for NaN, the
result when `n` is `0`. -/
def jsMod (i n : Nat) : Option Nat := if n = 0 then none else some (i % n)

/-- JavaScript `palette[k]` for a computed index: `undefined` (here `none`) when
the index is NaN or out of range. -/
def jsIndex (palette : List String) (k : Option Nat) : Option String :=
  k.bind fun j => palette[j]?

/-- The callback of `rows.map((r, i) => ...)` in `buildChartData`. -/
def chartPoint (palette : List String) (r : Record) (i : Nat) : ChartPoint :=
  { model := r.model
    accuracy := parsePercent r.accuracy
    fill := jsIndex palette (jsMod i palette.length) }

/-- JavaScript `xs.map((x, i) => f x i)` with the index starting at `start`. -/
def mapWithIndex {α β : Type} (f : α → Nat → β) : Nat → List α → List β
  | _, [] => []
  | start, x :: xs => f x start :: mapWithIndex f (start + 1) xs

/-- The function `buildChartData(rows, palette)`. -/
def buildChartData (rows : List Record) (palette : List String) : List ChartPoint :=
  mapWithIndex (chartPoint palette) 0 rows

/-! ## Data -/

/-- The constant `TOTAL`. -/
def TOTAL : Nat := 65

/-- The function `fmtCorrect(pct)`:
the template literal with `Math.round(parsePercent(pct) / 100 * TOTAL)`, then
`" / "`, then `TOTAL`.  It is `none` only where `numberToString` is. -/
def fmtCorrect (pct : String) : Option String :=
  (numberToString
    (mathRound (((parsePercent pct).div (JSNumber.ofNat 100)).mul (JSNumber.ofNat TOTAL)))).bind
  fun count => (numberToString (JSNumber.ofNat TOTAL)).map fun total =>
    count ++ " / " ++ total

/-- A record of the leaderboard table. -/
structure Row where
  model : String
  accuracy : String
  correct : Option String
  cost : String
  access : String
  icon : String
  deriving DecidableEq, Repr

/-- The table `rows`. -/
def rows : List Row := [
  { model := "GPT5 (high)",       accuracy := "6.3%", correct := fmtCorrect "6.3%", cost := "TBD", access := "TBD", icon := "o" },
  { model := "Gemini-2.5 Pro",    accuracy := "4.8%", correct := fmtCorrect "4.8%", cost := "TBD", access := "TBD", icon := "g" },
  { model := "Deepseek R1",       accuracy := "2.2%", correct := fmtCorrect "2.2%", cost := "TBD", access := "TBD", icon := "ds" },
  { model := "o3 (high)",         accuracy := "1.5%", correct := fmtCorrect "1.5%", cost := "TBD", access := "TBD", icon := "o" },
  { model := "Claude Opus 4",     accuracy := "1.3%", correct := fmtCorrect "1.3%", cost := "TBD", access := "TBD", icon := "c" },
  { model := "Gemini-2.5 Flash",  accuracy := "1.3%", correct := fmtCorrect "1.3%", cost := "TBD", access := "TBD", icon := "g" },
  { model := "o4-mini (high)",    accuracy := "1.1%", correct := fmtCorrect "1.1%", cost := "TBD", access := "TBD", icon := "o" },
  { model := "GPT5 (minimal)",    accuracy := "0.6%", correct := fmtCorrect "0.6%", cost := "TBD", access := "TBD", icon := "o" },
  { model := "Llama4 Maverick",   accuracy := "0.6%", correct := fmtCorrect "0.6%", cost := "TBD", access := "TBD", icon := "llama" },
  { model := "GPT-4o",            accuracy := "0.0%", correct := fmtCorrect "0.0%", cost := "TBD", access := "TBD", icon := "o" }
]

/-- The palette `colors`. -/
def colors : List String := [
  "#0072B2", "#009E73", "#332288", "#56B4E9", "#CC6677",
  "#DDCC77", "#117733", "#882255", "#E69F00", "#88CCEE"
]

/-- The constant `chartData`. -/
def chartData : List ChartPoint :=
  buildChartData (rows.map fun r => { model := r.model, accuracy := r.accuracy }) colors

/-! ## Rendering helpers of `App` -/

/-- The UTF-16 code units of a character: itself in the Basic Multilingual Plane,
a high and a low surrogate above it. -/
def utf16Units (c : Char) : List Nat :=
  if c.toNat < 0x10000 then [c.toNat]
  else [0xD800 + (c.toNat - 0x10000) / 0x400, 0xDC00 + (c.toNat - 0x10000) % 0x400]

/-- The UTF-16 code units of a list of characters. -/
def unitsOf : List Char → List Nat
  | [] => []
  | c :: cs => utf16Units c ++ unitsOf cs

/-- A text as JavaScript stores it: the sequence of its UTF-16 code units, which
is what `length` counts and `slice` cuts. -/
def toUTF16 (s : String) : List Nat := unitsOf s.data

/-- The `tickFormatter` of the x-axis:
`(v) => v.length > 14 ? v.slice(0, 14) + '…' : v`, on the code units of `v`;
the ellipsis `'…'` is the single code unit `0x2026`. -/
def tickFormatter (v : List Nat) : List Nat :=
  if v.length > 14 then v.take 14 ++ [0x2026] else v

/-- The icon glyph expression of a table row:
`r.icon === 'g' ? 'G' : r.icon === 'ds' ? 'D' : r.icon === 'llama' ? 'L' : 'O'`. -/
def iconGlyph (icon : String) : String :=
  if icon = "g" then "G" else if icon = "ds" then "D" else if icon = "llama" then "L" else "O"

/-! ## Vocabulary of the specification -/

/-- ECMAScript white space and line terminators, the characters that `Number`
and `trim` treat as blank. -/
def isWhiteSpace (c : Char) : Bool :=
  c.toNat ∈ [0x9, 0xA, 0xB, 0xC, 0xD, 0x20, 0xA0, 0x1680, 0x2028, 0x2029, 0x202F, 0x205F,
    0x3000, 0xFEFF] || (0x2000 ≤ c.toNat && c.toNat ≤ 0x200A)

/-- The text of a decimal numeral: the digits `a`, then, when there is a decimal
point, the point and the digits `b`. -/
def numeralText (a : List Char) : Option (List Char) → List Char
  | none => a
  | some b => a ++ '.' :: b

/-- The number a decimal numeral denotes: the value of the digits before the
point plus the value of the digits after it scaled by `10^-(their count)`. -/
def numeralValue (a : List Char) : Option (List Char) → ℚ
  | none => (digitsVal a : ℚ)
  | some b => (digitsVal a : ℚ) + (digitsVal b : ℚ) / (10 : ℚ) ^ b.length

/-- A percent string: blanks, a numeral, blanks, an optional `%`, blanks. -/
def percentText (w1 n w2 : List Char) (pct : Bool) (w3 : List Char) : String :=
  String.mk (w1 ++ n ++ w2 ++ (if pct then ['%'] else []) ++ w3)

/-- The exact value of `parsePercent(p)` before it is rounded to a Number: `0`
for an empty stripped text, the mathematical value of the decimal literal
otherwise, and `none` where `parsePercent` is NaN. -/
def exactPercent (p : String) : Option ℚ :=
  if (strip p).data = [] then some 0
  else (parseSigned (strip p).data).map fun nmd =>
    (if nmd.1 then -1 else 1) * (nmd.2.1 : ℚ) / (10 : ℚ) ^ nmd.2.2

/-- Rounding to the nearest integer, a tie going up (towards `+∞`), as
`Math.round` does. -/
def roundHalfUp (x : ℚ) : Int := ⌊x + 1 / 2⌋

/-- Rounding to the nearest integer, a tie going away from zero. -/
def roundHalfAwayFromZero (x : ℚ) : Int := if 0 ≤ x then ⌊x + 1 / 2⌋ else ⌈x - 1 / 2⌉

/-- Rounding to the nearest integer, a tie going to the even neighbour. -/
def roundHalfEven (x : ℚ) : Int :=
  if Int.fract x = 1 / 2 then (if ⌊x⌋ % 2 = 0 then ⌊x⌋ else ⌊x⌋ + 1) else ⌊x + 1 / 2⌋

/-! ## Lemmas on the chart adapter -/

theorem length_mapWithIndex {α β : Type} (f : α → Nat → β) (xs : List α) (start : Nat) :
    (mapWithIndex f start xs).length = xs.length := by
  induction xs generalizing start with
  | nil => rfl
  | cons x xs ih => simp [mapWithIndex, ih]

theorem getElem?_mapWithIndex {α β : Type} (f : α → Nat → β) (xs : List α) (start i : Nat) :
    (mapWithIndex f start xs)[i]? = (xs[i]?).map fun x => f x (start + i) := by
  induction xs generalizing start i with
  | nil => simp [mapWithIndex]
  | cons x xs ih =>
    cases i with
    | zero => simp [mapWithIndex]
    | succ j =>
      simp only [mapWithIndex, List.getElem?_cons_succ, ih]
      have h : start + 1 + j = start + (j + 1) := by omega
      rw [h]

theorem getElem?_buildChartData (rows : List Record) (palette : List String) (i : Nat) :
    (buildChartData rows palette)[i]? = (rows[i]?).map fun r => chartPoint palette r i := by
  simp [buildChartData, getElem?_mapWithIndex]

theorem keep_filter_of_not_keep (w : List Char) (hw : ∀ c ∈ w, keep c = false) :
    w.filter keep = [] := by
  rw [List.filter_eq_nil_iff]
  intro c hc
  simp [hw c hc]

/-! ## Lemmas on Number rounding -/

set_option maxRecDepth 100000 in
set_option exponentiation.threshold 2000 in
/-- Binary64 landmarks of `roundDouble`: `1/10` is `0x1.999999999999ap-4`, the
tie `2^53 + 1` goes to the even significand, the largest finite Number is kept,
`2^1024 - 2^970` overflows, and half the smallest subnormal underflows to zero. -/
theorem roundDouble_landmarks :
    roundDouble false 1 10 = fin false 7205759403792794 (-56) ∧
    roundDouble false (2 ^ 53 + 1) 1 = fin false (2 ^ 52) 1 ∧
    roundDouble false (2 ^ 53 + 3) 1 = fin false (2 ^ 52 + 2) 1 ∧
    roundDouble false (2 ^ 1024 - 2 ^ 971) 1 = fin false (2 ^ 53 - 1) 971 ∧
    roundDouble false (2 ^ 1024 - 2 ^ 970) 1 = inf false ∧
    roundDouble true 1 (2 ^ 1074) = fin true 1 (-1074) ∧
    roundDouble false 1 (2 ^ 1075) = fin false 0 (-1074) := by
  decide

theorem log2Fuel_spec (fuel n : Nat) (hn : 0 < n) (hf : n ≤ fuel) :
    2 ^ log2Fuel fuel n ≤ n ∧ n < 2 ^ (log2Fuel fuel n + 1) := by
  induction fuel generalizing n with
  | zero => omega
  | succ fuel ih =>
    unfold log2Fuel
    by_cases h : n < 2
    · rw [if_pos h]; simp; omega
    · rw [if_neg h]
      have := ih (n / 2) (by omega) (by omega)
      rw [pow_succ] at this
      rw [pow_succ, pow_succ, pow_succ]
      omega

theorem log2_spec (n : Nat) (hn : 0 < n) : 2 ^ log2 n ≤ n ∧ n < 2 ^ (log2 n + 1) :=
  log2Fuel_spec n n hn (le_refl n)

theorem two_zpow_eq (z : Int) : (2 : ℚ) ^ z = (2 : ℚ) ^ z.toNat / (2 : ℚ) ^ (-z).toNat := by
  rcases le_total 0 z with h | h
  · have h2 : (-z).toNat = 0 := Int.toNat_eq_zero.mpr (by omega)
    rw [h2, pow_zero, div_one, ← zpow_natCast, Int.toNat_of_nonneg h]
  · have h2 : z.toNat = 0 := Int.toNat_eq_zero.mpr h
    rw [h2, pow_zero, one_div, ← zpow_natCast, Int.toNat_of_nonneg (by omega), zpow_neg, inv_inv]

/-- The comparison `q·2^z ≤ p` carried out on natural numbers. -/
theorem zpow_le_div_iff (p q : Nat) (hq : 0 < q) (z : Int) :
    q * 2 ^ z.toNat ≤ p * 2 ^ (-z).toNat ↔ (2 : ℚ) ^ z ≤ (p : ℚ) / q := by
  have hq' : (0 : ℚ) < q := by exact_mod_cast hq
  have h2 : (0 : ℚ) < (2 : ℚ) ^ (-z).toNat := by positivity
  rw [two_zpow_eq, div_le_div_iff₀ h2 hq']
  constructor
  · intro h
    have : ((q * 2 ^ z.toNat : Nat) : ℚ) ≤ ((p * 2 ^ (-z).toNat : Nat) : ℚ) := by exact_mod_cast h
    push_cast at this
    linarith
  · intro h
    have : ((q * 2 ^ z.toNat : Nat) : ℚ) ≤ ((p * 2 ^ (-z).toNat : Nat) : ℚ) := by
      push_cast; linarith
    exact_mod_cast this

theorem floorLog2_eq_log (p q : Nat) (hp : 0 < p) (hq : 0 < q) :
    floorLog2 p q = Int.log 2 ((p : ℚ) / q) := by
  have hp' : (0 : ℚ) < p := by exact_mod_cast hp
  have hq' : (0 : ℚ) < q := by exact_mod_cast hq
  have hr : (0 : ℚ) < (p : ℚ) / q := div_pos hp' hq'
  obtain ⟨hp1, hp2⟩ := log2_spec p hp
  obtain ⟨hq1, hq2⟩ := log2_spec q hq
  have hp1' : (2 : ℚ) ^ (log2 p : Int) ≤ p := by rw [zpow_natCast]; exact_mod_cast hp1
  have hp2' : (p : ℚ) < (2 : ℚ) ^ ((log2 p : Int) + 1) := by
    have : (p : ℚ) < (2 : ℚ) ^ (log2 p + 1) := by exact_mod_cast hp2
    rw [← zpow_natCast] at this; exact_mod_cast this
  have hq1' : (2 : ℚ) ^ (log2 q : Int) ≤ q := by rw [zpow_natCast]; exact_mod_cast hq1
  have hq2' : (q : ℚ) < (2 : ℚ) ^ ((log2 q : Int) + 1) := by
    have : (q : ℚ) < (2 : ℚ) ^ (log2 q + 1) := by exact_mod_cast hq2
    rw [← zpow_natCast] at this; exact_mod_cast this
  have key : ∀ f : Int, (2 : ℚ) ^ f ≤ (p : ℚ) / q → (p : ℚ) / q < (2 : ℚ) ^ (f + 1) →
      f = Int.log 2 ((p : ℚ) / q) := by
    intro f h1 h2
    have a1 : f ≤ Int.log 2 ((p : ℚ) / q) :=
      (Int.zpow_le_iff_le_log (by norm_num) hr).mp (by exact_mod_cast h1)
    have a2 : Int.log 2 ((p : ℚ) / q) < f + 1 :=
      (Int.lt_zpow_iff_log_lt (by norm_num) hr).mp (by exact_mod_cast h2)
    omega
  have h2pos : ∀ z : Int, (0 : ℚ) < (2 : ℚ) ^ z := fun z => by positivity
  unfold floorLog2
  simp only
  split_ifs with hT
  · apply key
    · exact (zpow_le_div_iff p q hq _).mp hT
    · rw [div_lt_iff₀ hq']
      calc (p : ℚ) < (2 : ℚ) ^ ((log2 p : Int) + 1) := hp2'
        _ = (2 : ℚ) ^ ((log2 p : Int) - (log2 q : Int) + 1) * (2 : ℚ) ^ (log2 q : Int) := by
            rw [← zpow_add₀ (by norm_num)]; congr 1; ring
        _ ≤ (2 : ℚ) ^ ((log2 p : Int) - (log2 q : Int) + 1) * q :=
            mul_le_mul_of_nonneg_left hq1' (le_of_lt (h2pos _))
  · apply key
    · rw [le_div_iff₀ hq']
      calc (2 : ℚ) ^ ((log2 p : Int) - (log2 q : Int) - 1) * q
          ≤ (2 : ℚ) ^ ((log2 p : Int) - (log2 q : Int) - 1) * (2 : ℚ) ^ ((log2 q : Int) + 1) :=
            mul_le_mul_of_nonneg_left (le_of_lt hq2') (le_of_lt (h2pos _))
        _ = (2 : ℚ) ^ (log2 p : Int) := by
            rw [← zpow_add₀ (by norm_num)]; congr 1; ring
        _ ≤ p := hp1'
    · have := (zpow_le_div_iff p q hq ((log2 p : Int) - (log2 q : Int))).not.mp hT
      rw [sub_add_cancel]
      exact lt_of_not_le this

theorem floorLog2_scale (k p q : Nat) (hk : 0 < k) (hp : 0 < p) (hq : 0 < q) :
    floorLog2 (k * p) (k * q) = floorLog2 p q := by
  rw [floorLog2_eq_log _ _ (Nat.mul_pos hk hp) (Nat.mul_pos hk hq), floorLog2_eq_log _ _ hp hq]
  congr 1
  have hk' : (k : ℚ) ≠ 0 := by exact_mod_cast hk.ne'
  push_cast
  rw [mul_div_mul_left _ _ hk']

theorem roundDouble_scale (neg : Bool) (k p q : Nat) (hk : 0 < k) (hq : 0 < q) :
    roundDouble neg (k * p) (k * q) = roundDouble neg p q := by
  rcases Nat.eq_zero_or_pos p with hp | hp
  · subst hp; simp [roundDouble]
  · have hkp : k * p ≠ 0 := (Nat.mul_pos hk hp).ne'
    unfold roundDouble
    rw [if_neg hkp, if_neg hp.ne', floorLog2_scale k p q hk hp hq]
    simp only [Nat.mul_assoc, Nat.mul_div_mul_left _ _ hk, Nat.mul_mod_mul_left]
    have e1 : ∀ d r : Nat, (k * d < 2 * (k * r)) ↔ d < 2 * r := by
      intro d r
      rw [Nat.mul_left_comm 2 k r]
      exact Nat.mul_lt_mul_left hk
    have e2 : ∀ d r : Nat, (2 * (k * r) = k * d) ↔ 2 * r = d := by
      intro d r
      rw [Nat.mul_left_comm 2 k r]
      exact Nat.mul_right_inj hk.ne'
    simp only [e1, e2]

theorem ofRat_div (p q : Nat) (hq : 0 < q) :
    JSNumber.ofRat ((p : ℚ) / q) = roundDouble false p q := by
  have hq' : ((q : Int)) ≠ 0 := by exact_mod_cast hq.ne'
  obtain ⟨c, hc1, hc2⟩ := Rat.exists_eq_mul_div_num_and_eq_mul_div_den (p : Int) hq'
  have hnn : (0 : ℚ) ≤ (p : ℚ) / q := by positivity
  have hcast : ((p : Int) : ℚ) / ((q : Int) : ℚ) = (p : ℚ) / q := by push_cast; rfl
  rw [hcast] at hc1 hc2
  have hnum : 0 ≤ ((p : ℚ) / q).num := Rat.num_nonneg.mpr hnn
  have hd : (0 : Int) < (((p : ℚ) / q).den : Int) := by exact_mod_cast ((p : ℚ) / q).den_pos
  have hcpos : 0 < c := by
    have hqq : (0 : Int) < (q : Int) := by exact_mod_cast hq
    rw [hc2] at hqq
    by_contra hneg
    have : c * (((p : ℚ) / q).den : Int) ≤ 0 :=
      mul_nonpos_of_nonpos_of_nonneg (not_lt.mp hneg) (le_of_lt hd)
    omega
  have hp_eq : p = c.toNat * ((p : ℚ) / q).num.natAbs := by
    have h : (p : Int) = ((c.toNat * ((p : ℚ) / q).num.natAbs : Nat) : Int) := by
      rw [Nat.cast_mul, Int.toNat_of_nonneg (le_of_lt hcpos), Int.natAbs_of_nonneg hnum]
      exact hc1
    exact_mod_cast h
  have hq_eq : q = c.toNat * ((p : ℚ) / q).den := by
    have h : (q : Int) = ((c.toNat * ((p : ℚ) / q).den : Nat) : Int) := by
      rw [Nat.cast_mul, Int.toNat_of_nonneg (le_of_lt hcpos)]
      exact hc2
    exact_mod_cast h
  have hdec : decide ((p : ℚ) / q < 0) = false := by
    simp only [decide_eq_false_iff_not, not_lt]; exact hnn
  unfold JSNumber.ofRat
  rw [hdec]
  have hs := roundDouble_scale false c.toNat ((p : ℚ) / q).num.natAbs ((p : ℚ) / q).den
    (by omega) ((p : ℚ) / q).den_pos
  rw [← hp_eq, ← hq_eq] at hs
  exact hs.symm
/-- Rounding a rational that is at most `2^K` gives a finite non-negative Number
that is at most `2^K`. -/
theorem roundDouble_le_two_zpow (p q : Nat) (K : Int) (hq : 0 < q)
    (hK1 : -1074 ≤ K) (hK2 : K ≤ 1023) (h : (p : ℚ) / q ≤ (2 : ℚ) ^ K) :
    ∃ m e, roundDouble false p q = fin false m e ∧ (m : ℚ) * (2 : ℚ) ^ e ≤ (2 : ℚ) ^ K := by
  have h2pos : ∀ z : Int, (0 : ℚ) < (2 : ℚ) ^ z := fun z => by positivity
  rcases Nat.eq_zero_or_pos p with hp | hp
  · subst hp
    refine ⟨0, -1074, by simp [roundDouble], ?_⟩
    simp only [Nat.cast_zero, zero_mul]
    exact le_of_lt (h2pos K)
  · have hp' : (0 : ℚ) < p := by exact_mod_cast hp
    have hq' : (0 : ℚ) < q := by exact_mod_cast hq
    have hr : (0 : ℚ) < (p : ℚ) / q := div_pos hp' hq'
    have hf : floorLog2 p q ≤ K := by
      rw [floorLog2_eq_log p q hp hq]
      have h1 : ((2 : ℕ) : ℚ) ^ Int.log 2 ((p : ℚ) / q) ≤ (p : ℚ) / q :=
        Int.zpow_log_le_self (by norm_num) hr
      have h3 : (2 : ℚ) ^ Int.log 2 ((p : ℚ) / q) ≤ (2 : ℚ) ^ K := by
        have : (2 : ℚ) ^ Int.log 2 ((p : ℚ) / q) ≤ (p : ℚ) / q := by exact_mod_cast h1
        linarith
      exact (zpow_le_zpow_iff_right₀ (by norm_num : (1 : ℚ) < 2)).mp h3
    generalize hfe : floorLog2 p q = f at hf
    have he : max (f - 52) (-1074) ≤ K := by omega
    have he2 : max (f - 52) (-1074) ≤ 971 := by omega
    unfold roundDouble
    rw [if_neg hp.ne', hfe]
    generalize max (f - 52) (-1074) = e at he he2
    simp only
    generalize hn : p * 2 ^ (-e).toNat = n
    generalize hd : q * 2 ^ e.toNat = d
    have hdpos : 0 < d := by rw [← hd]; positivity
    -- the bound `2^(K - e)` as a natural number
    have hN : (2 : ℚ) ^ K = ((2 ^ (K - e).toNat : Nat) : ℚ) * (2 : ℚ) ^ e := by
      push_cast
      rw [← zpow_natCast, Int.toNat_of_nonneg (by omega), ← zpow_add₀ (by norm_num)]
      congr 1; ring
    generalize hNdef : 2 ^ (K - e).toNat = N at hN
    have hnd : n ≤ N * d := by
      have hq2 : (p : ℚ) ≤ (N : ℚ) * (2 : ℚ) ^ e * q := by
        rw [← hN]; exact (div_le_iff₀ hq').mp h
      rw [two_zpow_eq e] at hq2
      have hpos : (0 : ℚ) < (2 : ℚ) ^ (-e).toNat := by positivity
      have : ((n : Nat) : ℚ) ≤ ((N * d : Nat) : ℚ) := by
        rw [← hn, ← hd]
        push_cast
        have h5 : (p : ℚ) * (2 : ℚ) ^ (-e).toNat
            ≤ (N : ℚ) * ((2 : ℚ) ^ e.toNat / (2 : ℚ) ^ (-e).toNat) * q * (2 : ℚ) ^ (-e).toNat :=
          mul_le_mul_of_nonneg_right hq2 (le_of_lt hpos)
        have h6 : (N : ℚ) * ((2 : ℚ) ^ e.toNat / (2 : ℚ) ^ (-e).toNat) * q * (2 : ℚ) ^ (-e).toNat
            = (N : ℚ) * (q * (2 : ℚ) ^ e.toNat) := by
          field_simp
          ring
        linarith
      exact_mod_cast this
    have hm : n / d ≤ N := Nat.div_le_of_le_mul (by rw [Nat.mul_comm]; exact hnd)
    have hm1 : (if d < 2 * (n % d) ∨ (2 * (n % d) = d ∧ n / d % 2 = 1) then n / d + 1 else n / d)
        ≤ N := by
      split_ifs with hc
      · have hrpos : 0 < n % d := by
          rcases hc with hc | hc <;> omega
        have hdm := Nat.div_add_mod n d
        have hlt : d * (n / d) < d * N := by
          have : d * N = N * d := Nat.mul_comm _ _
          omega
        have := Nat.lt_of_mul_lt_mul_left hlt
        omega
      · exact hm
    generalize (if d < 2 * (n % d) ∨ (2 * (n % d) = d ∧ n / d % 2 = 1) then n / d + 1 else n / d)
      = m1 at hm1
    have hval : (m1 : ℚ) * (2 : ℚ) ^ e ≤ (2 : ℚ) ^ K := by
      rw [hN]
      exact mul_le_mul_of_nonneg_right (by exact_mod_cast hm1) (le_of_lt (h2pos e))
    by_cases h53 : m1 = 2 ^ 53
    · rw [if_pos h53]
      have hKe : 53 ≤ (K - e).toNat := by
        rw [h53, ← hNdef] at hm1
        exact (Nat.pow_le_pow_iff_right (by norm_num)).mp hm1
      have : ¬ (971 < e + 1) := by omega
      simp only [this, if_false]
      refine ⟨_, _, rfl, ?_⟩
      have : ((2 ^ 52 : Nat) : ℚ) * (2 : ℚ) ^ (e + 1) = (m1 : ℚ) * (2 : ℚ) ^ e := by
        rw [h53, zpow_add₀ (by norm_num)]
        push_cast
        ring
      rw [this]
      exact hval
    · rw [if_neg h53]
      have : ¬ (971 < e) := by omega
      simp only [this, if_false]
      exact ⟨_, _, rfl, hval⟩

theorem scaled_ratio (a b : Nat) (z : Int) :
    ((a * 2 ^ z.toNat : Nat) : ℚ) / ((b * 2 ^ (-z).toNat : Nat) : ℚ)
      = (a : ℚ) / (b : ℚ) * (2 : ℚ) ^ z := by
  rw [two_zpow_eq z]
  push_cast
  rw [mul_div_mul_comm]

/-- Dividing a non-negative finite Number that is at most `2^K` by the Number
`100` gives a non-negative finite Number that is at most `2^(K-6)`. -/
theorem div_hundred_le (m : Nat) (e K : Int) (hK1 : -1068 ≤ K) (hK2 : K ≤ 1029)
    (hv : (m : ℚ) * (2 : ℚ) ^ e ≤ (2 : ℚ) ^ K) :
    ∃ m2 e2, (fin false m e).div (JSNumber.ofNat 100) = fin false m2 e2 ∧
      (m2 : ℚ) * (2 : ℚ) ^ e2 ≤ (2 : ℚ) ^ (K - 6) := by
  have h100 : JSNumber.ofNat 100 = fin false 7036874417766400 (-46) := by decide
  have hdiv : (fin false m e).div (JSNumber.ofNat 100)
      = roundDouble false (m * 2 ^ (e - -46).toNat)
          (7036874417766400 * 2 ^ (-(e - -46)).toNat) := by
    rw [h100]
    have : (-46 - e) = -(e - -46) := by ring
    simp [JSNumber.div, this]
  rw [hdiv]
  apply roundDouble_le_two_zpow _ _ _ (by positivity) (by omega) (by omega)
  rw [scaled_ratio]
  have h2pos : ∀ z : Int, (0 : ℚ) < (2 : ℚ) ^ z := fun z => by positivity
  have e1 : (2 : ℚ) ^ (e - -46) = (2 : ℚ) ^ e * (2 : ℚ) ^ (46 : Int) := by
    rw [← zpow_add₀ (by norm_num)]; congr 1
  have e2 : (2 : ℚ) ^ (K - 6) = (2 : ℚ) ^ K / 64 := by
    rw [zpow_sub₀ (by norm_num)]; norm_num
  rw [e1, e2]
  have e3 : ((m : ℚ) / ((7036874417766400 : Nat) : ℚ)) * ((2 : ℚ) ^ e * (2 : ℚ) ^ (46 : Int))
      = (m : ℚ) * (2 : ℚ) ^ e / 100 := by
    norm_num
    ring
  rw [e3]
  have hnn : (0 : ℚ) ≤ (m : ℚ) * (2 : ℚ) ^ e := by positivity
  have := h2pos K
  rw [div_le_div_iff₀ (by norm_num) (by norm_num)]
  nlinarith

/-- Multiplying a non-negative finite Number that is at most `2^K` by the Number
`65` gives a non-negative finite Number that is at most `2^(K+7)`. -/
theorem mul_total_le (m : Nat) (e K : Int) (hK1 : -1081 ≤ K) (hK2 : K ≤ 1016)
    (hv : (m : ℚ) * (2 : ℚ) ^ e ≤ (2 : ℚ) ^ K) :
    ∃ m2 e2, (fin false m e).mul (JSNumber.ofNat 65) = fin false m2 e2 ∧
      (m2 : ℚ) * (2 : ℚ) ^ e2 ≤ (2 : ℚ) ^ (K + 7) := by
  have h65 : JSNumber.ofNat 65 = fin false 4573968371548160 (-46) := by decide
  have hmul : (fin false m e).mul (JSNumber.ofNat 65)
      = roundDouble false (m * 4573968371548160 * 2 ^ (e + -46).toNat)
          (1 * 2 ^ (-(e + -46)).toNat) := by
    rw [h65]
    simp [JSNumber.mul]
  rw [hmul]
  apply roundDouble_le_two_zpow _ _ _ (by positivity) (by omega) (by omega)
  rw [scaled_ratio]
  have h2pos : ∀ z : Int, (0 : ℚ) < (2 : ℚ) ^ z := fun z => by positivity
  have e1 : (2 : ℚ) ^ (e + -46) = (2 : ℚ) ^ e / (2 : ℚ) ^ (46 : Int) := by
    rw [← zpow_sub₀ (by norm_num)]; congr 1
  have e2 : (2 : ℚ) ^ (K + 7) = (2 : ℚ) ^ K * 128 := by
    rw [zpow_add₀ (by norm_num)]; norm_num
  rw [e1, e2]
  have e3 : (((m * 4573968371548160 : Nat) : ℚ) / ((1 : Nat) : ℚ))
      * ((2 : ℚ) ^ e / (2 : ℚ) ^ (46 : Int)) = (m : ℚ) * (2 : ℚ) ^ e * 65 := by
    push_cast
    norm_num
    ring
  rw [e3]
  have hnn : (0 : ℚ) ≤ (m : ℚ) * (2 : ℚ) ^ e := by positivity
  have := h2pos K
  nlinarith

/-- A natural number below `2^53` is a Number: rounding is exact on it. -/
theorem roundDouble_nat (n : Nat) (h0 : 0 < n) (h : n < 2 ^ 53) :
    roundDouble false n 1
      = fin false (n * 2 ^ (52 - Nat.log 2 n)) ((Nat.log 2 n : Int) - 52) := by
  have hf : floorLog2 n 1 = (Nat.log 2 n : Int) := by
    rw [floorLog2_eq_log n 1 h0 (by norm_num)]
    simp only [Nat.cast_one, div_one]
    exact Int.log_natCast 2 n
  have hL : Nat.log 2 n < 53 := Nat.log_lt_of_lt_pow h0.ne' h
  have hlt : n < 2 ^ (Nat.log 2 n + 1) := Nat.lt_pow_succ_log_self (by norm_num) n
  generalize Nat.log 2 n = L at hf hL hlt
  have he : max ((L : Int) - 52) (-1074) = (L : Int) - 52 := by omega
  have ha : (-((L : Int) - 52)).toNat = 52 - L := by omega
  have hb : ((L : Int) - 52).toNat = 0 := by omega
  have hm : n * 2 ^ (52 - L) ≠ 2 ^ 53 := by
    have h1 : n * 2 ^ (52 - L) < 2 ^ (L + 1) * 2 ^ (52 - L) :=
      Nat.mul_lt_mul_of_pos_right hlt (by positivity)
    have h2 : 2 ^ (L + 1) * 2 ^ (52 - L) = 2 ^ 53 := by
      rw [← pow_add]; congr 1; omega
    omega
  have h971 : ¬ (971 < (L : Int) - 52) := by omega
  unfold roundDouble
  rw [if_neg h0.ne', hf, he]
  simp only [ha, hb, pow_zero, Nat.mul_one, Nat.div_one, Nat.mod_one, Nat.mul_zero]
  simp only [show ¬ (1 < 0 ∨ (0 = 1 ∧ n * 2 ^ (52 - L) % 2 = 1)) by omega, if_false, hm, h971]

/-- On a non-negative finite Number that is at most `2^52`, `Math.round` gives
the natural number `⌊v + 1/2⌋`, which `numberToString` renders in decimal. -/
theorem mathRound_render (m : Nat) (e : Int) (hv : (m : ℚ) * (2 : ℚ) ^ e ≤ (2 : ℚ) ^ (52 : Int)) :
    ∃ n : Nat, (n : Int) = roundHalfUp ((m : ℚ) * (2 : ℚ) ^ e) ∧
      (mathRound (fin false m e)).toRat = some (n : ℚ) ∧
      numberToString (mathRound (fin false m e)) = some (String.mk (natDigits n)) := by
  have h252 : (2 : ℚ) ^ (52 : Int) = ((2 ^ 52 : Nat) : ℚ) := by norm_num
  rw [h252] at hv
  by_cases hm0 : m = 0
  · subst hm0
    refine ⟨0, ?_, ?_, ?_⟩
    · simp only [roundHalfUp, Nat.cast_zero, zero_mul, zero_add]
      norm_num
    · simp [mathRound, JSNumber.toRat]
    · simp [mathRound, numberToString]
      rfl
  by_cases he : 0 ≤ e
  · -- the Number is already an integer
    have hval : (m : ℚ) * (2 : ℚ) ^ e = ((m * 2 ^ e.toNat : Nat) : ℚ) := by
      push_cast
      rw [← zpow_natCast, Int.toNat_of_nonneg he]
    rw [hval] at hv
    have hle : m * 2 ^ e.toNat ≤ 2 ^ 52 := by exact_mod_cast hv
    have hr : mathRound (fin false m e) = fin false m e := by simp [mathRound, he]
    refine ⟨m * 2 ^ e.toNat, ?_, ?_, ?_⟩
    · rw [hval]
      simp only [roundHalfUp]
      symm
      rw [Int.floor_eq_iff]
      constructor <;> push_cast <;> linarith
    · rw [hr]
      simp only [JSNumber.toRat, Bool.false_eq_true, if_false, one_mul]
      rw [hval]
    · rw [hr]
      have hz : (-e).toNat = 0 := by omega
      simp only [numberToString, hm0, if_false, hz, pow_zero, Nat.mod_one, Nat.div_one,
        true_and]
      rw [if_pos (by omega)]
      rfl
  · -- a fraction: `⌊v + 1/2⌋` is computed on integers
    have hneg : e < 0 := by omega
    have hpow : (2 : ℚ) ^ e = 1 / ((2 ^ (-e).toNat : Nat) : ℚ) := by
      rw [two_zpow_eq e]
      have : e.toNat = 0 := by omega
      rw [this]
      push_cast
      simp
    generalize hd : 2 ^ (-e).toNat = d at hpow
    have hdpos : 0 < d := by rw [← hd]; positivity
    have hdq : (0 : ℚ) < (d : ℚ) := by exact_mod_cast hdpos
    have hval : (m : ℚ) * (2 : ℚ) ^ e = (m : ℚ) / d := by rw [hpow]; ring
    rw [hval] at hv ⊢
    have hcond : ¬ (0 ≤ e ∨ m = 0) := by
      push_neg; exact ⟨hneg, hm0⟩
    have hfloor : roundHalfUp ((m : ℚ) / d) = (2 * (m : Int) + d) / (2 * (d : Int)) := by
      simp only [roundHalfUp]
      rw [Int.floor_eq_iff]
      have h2d : (0 : Int) < 2 * (d : Int) := by omega
      have l1 := Int.ediv_mul_le (2 * (m : Int) + d) (ne_of_gt h2d)
      have l2 := Int.lt_ediv_add_one_mul_self (2 * (m : Int) + d) h2d
      generalize (2 * (m : Int) + d) / (2 * (d : Int)) = k at l1 l2
      have l1' : ((k * (2 * (d : Int)) : Int) : ℚ) ≤ ((2 * (m : Int) + d : Int) : ℚ) := by
        exact_mod_cast l1
      have l2' : ((2 * (m : Int) + d : Int) : ℚ) < (((k + 1) * (2 * (d : Int)) : Int) : ℚ) := by
        exact_mod_cast l2
      push_cast at l1' l2'
      constructor
      · rw [div_add_div _ _ (ne_of_gt hdq) (by norm_num), le_div_iff₀ (by positivity)]
        linarith
      · rw [div_add_div _ _ (ne_of_gt hdq) (by norm_num), div_lt_iff₀ (by positivity)]
        linarith
    have hround : mathRound (fin false m e)
        = if (2 * (m : Int) + d) / (2 * (d : Int)) = 0 then fin false 0 (-1074)
          else JSNumber.ofInt ((2 * (m : Int) + d) / (2 * (d : Int))) := by
      simp only [mathRound, hcond, if_false, Bool.false_eq_true]
      rw [← hd]
      push_cast
      rfl
    rw [hround, hfloor]
    have hk0 : 0 ≤ (2 * (m : Int) + d) / (2 * (d : Int)) :=
      Int.ediv_nonneg (by positivity) (by positivity)
    have hk52 : (2 * (m : Int) + d) / (2 * (d : Int)) ≤ 2 ^ 52 := by
      have hmd : m ≤ 2 ^ 52 * d := by
        have := (div_le_iff₀ hdq).mp hv
        exact_mod_cast this
      have h2d : (0 : Int) < 2 * (d : Int) := by omega
      have : (2 * (m : Int) + d) / (2 * (d : Int)) < 2 ^ 52 + 1 := by
        rw [Int.ediv_lt_iff_lt_mul h2d]
        have : (m : Int) ≤ 2 ^ 52 * (d : Int) := by exact_mod_cast hmd
        nlinarith
      omega
    generalize (2 * (m : Int) + d) / (2 * (d : Int)) = k at hk0 hk52
    refine ⟨k.toNat, Int.toNat_of_nonneg hk0, ?_, ?_⟩
    · by_cases hk : k = 0
      · subst hk
        simp [JSNumber.toRat]
      · rw [if_neg hk]
        have hpos : 0 < k.toNat := by omega
        have hlt : k.toNat < 2 ^ 53 := by omega
        have hdec : decide (k < 0) = false := by simp; omega
        have hab : k.natAbs = k.toNat := by omega
        simp only [JSNumber.ofInt, hdec, hab]
        rw [roundDouble_nat _ hpos hlt]
        have hL : Nat.log 2 k.toNat < 53 := Nat.log_lt_of_lt_pow hpos.ne' hlt
        simp only [JSNumber.toRat, Bool.false_eq_true, if_false, one_mul]
        congr 1
        push_cast
        rw [mul_assoc, ← zpow_natCast, ← zpow_add₀ (by norm_num)]
        have : ((52 - Nat.log 2 k.toNat : Nat) : Int) + ((Nat.log 2 k.toNat : Int) - 52) = 0 := by
          omega
        rw [this, zpow_zero, mul_one]
    · by_cases hk : k = 0
      · subst hk
        simp [numberToString]
        rfl
      · rw [if_neg hk]
        have hpos : 0 < k.toNat := by omega
        have hlt : k.toNat < 2 ^ 53 := by omega
        have hdec : decide (k < 0) = false := by simp; omega
        have hab : k.natAbs = k.toNat := by omega
        simp only [JSNumber.ofInt, hdec, hab]
        rw [roundDouble_nat _ hpos hlt]
        have hL : Nat.log 2 k.toNat < 53 := Nat.log_lt_of_lt_pow hpos.ne' hlt
        generalize Nat.log 2 k.toNat = L at hL
        have h1 : ((L : Int) - 52).toNat = 0 := by omega
        have h2 : (-((L : Int) - 52)).toNat = 52 - L := by omega
        have hne : k.toNat * 2 ^ (52 - L) ≠ 0 := by positivity
        have hdiv : k.toNat * 2 ^ (52 - L) / 2 ^ (52 - L) = k.toNat :=
          Nat.mul_div_cancel _ (by positivity)
        simp only [numberToString, hne, if_false, h1, h2, pow_zero, Nat.mul_one,
          Nat.mul_mod_left, hdiv, hlt, and_self, if_true, Bool.false_eq_true, List.nil_append]

/-! ## Lemmas on the percent parser -/

theorem keep_of_isDigit (c : Char) (h : c.isDigit = true) : keep c = true := by
  simp [keep, h]

theorem keep_false_of_isWhiteSpace (c : Char) (h : isWhiteSpace c = true) : keep c = false := by
  cases hk : keep c with
  | false => rfl
  | true =>
    exfalso
    have hc : (48 ≤ c.toNat ∧ c.toNat ≤ 57) ∨ c.toNat = 46 ∨ c.toNat = 45 := by
      simp only [keep, Bool.or_eq_true, beq_iff_eq] at hk
      rcases hk with (hd | hd) | hd
      · left
        simp only [Char.isDigit, Bool.and_eq_true, decide_eq_true_eq] at hd
        exact ⟨hd.1, hd.2⟩
      · right; left; rw [hd]; rfl
      · right; right; rw [hd]; rfl
    simp only [isWhiteSpace, Bool.or_eq_true, Bool.and_eq_true, decide_eq_true_eq,
      List.mem_cons, List.mem_singleton] at h
    simp only [List.not_mem_nil, or_false] at h
    omega

theorem strip_percentText (w1 n w2 w3 : List Char) (pct : Bool)
    (hn : ∀ c ∈ n, keep c = true)
    (h1 : ∀ c ∈ w1, keep c = false) (h2 : ∀ c ∈ w2, keep c = false)
    (h3 : ∀ c ∈ w3, keep c = false) :
    (strip (percentText w1 n w2 pct w3)).data = n := by
  have hp : (if pct then ['%'] else []).filter keep = [] := by cases pct <;> rfl
  simp only [strip, percentText, List.filter_append, keep_filter_of_not_keep _ h1,
    keep_filter_of_not_keep _ h2, keep_filter_of_not_keep _ h3, hp, List.append_nil,
    List.nil_append]
  exact List.filter_eq_self.mpr hn

theorem foldl_digits (init : Nat) (b : List Char) :
    b.foldl (fun acc c => 10 * acc + digitVal c) init = init * 10 ^ b.length + digitsVal b := by
  induction b generalizing init with
  | nil => simp [digitsVal]
  | cons c b ih =>
    simp only [digitsVal, List.foldl_cons, List.length_cons] at ih ⊢
    rw [ih (10 * init + digitVal c), ih (10 * 0 + digitVal c)]
    ring

theorem digitsVal_append (a b : List Char) :
    digitsVal (a ++ b) = digitsVal a * 10 ^ b.length + digitsVal b := by
  unfold digitsVal
  rw [List.foldl_append, foldl_digits]
  rfl

theorem parseUnsigned_digits (a : List Char) (ha : ∀ c ∈ a, c.isDigit = true) (hne : a ≠ []) :
    parseUnsigned a = some (digitsVal a, 0) := by
  have h1 : a.takeWhile Char.isDigit = a := List.takeWhile_eq_self_iff.mpr ha
  have h2 : a.dropWhile Char.isDigit = [] := List.dropWhile_eq_nil_iff.mpr ha
  unfold parseUnsigned
  simp only [h1, h2, hne, if_false]

theorem parseUnsigned_point (a b : List Char) (ha : ∀ c ∈ a, c.isDigit = true)
    (hb : ∀ c ∈ b, c.isDigit = true) (hne : a ++ b ≠ []) :
    parseUnsigned (a ++ '.' :: b) = some (digitsVal (a ++ b), b.length) := by
  have h1 : (a ++ '.' :: b).takeWhile Char.isDigit = a := by
    rw [List.takeWhile_append_of_pos ha]
    simp [List.takeWhile_cons, Char.isDigit]
  have h2 : (a ++ '.' :: b).dropWhile Char.isDigit = '.' :: b := by
    rw [List.dropWhile_append_of_pos ha]
    simp [List.dropWhile_cons, Char.isDigit]
  have h3 : b.all Char.isDigit = true := List.all_eq_true.mpr hb
  have h4 : a ≠ [] ∨ b ≠ [] := by
    by_contra hcon
    push_neg at hcon
    exact hne (by rw [hcon.1, hcon.2]; rfl)
  unfold parseUnsigned
  simp only [h1, h2, h3, h4, and_self, if_true]

theorem parseSigned_of_head (c : Char) (t : List Char) (hc : c ≠ '-') :
    parseSigned (c :: t) = (parseUnsigned (c :: t)).map fun md => (false, md) := by
  unfold parseSigned
  split
  · rename_i heq
    simp only [List.cons.injEq] at heq
    exact absurd heq.1 hc
  · rfl

theorem numeralText_keep (a : List Char) (frac : Option (List Char))
    (ha : ∀ c ∈ a, c.isDigit = true) (hb : ∀ c ∈ frac.getD [], c.isDigit = true) :
    ∀ c ∈ numeralText a frac, keep c = true := by
  intro c hc
  cases frac with
  | none => exact keep_of_isDigit c (ha c hc)
  | some b =>
    simp only [numeralText, List.mem_append, List.mem_cons] at hc
    rcases hc with h | h | h
    · exact keep_of_isDigit c (ha c h)
    · rw [h]; rfl
    · exact keep_of_isDigit c (hb c h)

theorem numeralText_head (a : List Char) (frac : Option (List Char))
    (ha : ∀ c ∈ a, c.isDigit = true) (hne : a ++ frac.getD [] ≠ []) :
    ∃ c t, numeralText a frac = c :: t ∧ c ≠ '-' := by
  cases a with
  | nil =>
    cases frac with
    | none => simp at hne
    | some b => exact ⟨'.', b, rfl, by decide⟩
  | cons c a =>
    refine ⟨c, numeralText a frac, by cases frac <;> rfl, ?_⟩
    intro h
    have := ha c (List.mem_cons_self _ _)
    rw [h] at this
    exact absurd this (by decide)

theorem parseSigned_numeralText (a : List Char) (frac : Option (List Char))
    (ha : ∀ c ∈ a, c.isDigit = true) (hb : ∀ c ∈ frac.getD [], c.isDigit = true)
    (hne : a ++ frac.getD [] ≠ []) :
    parseSigned (numeralText a frac)
      = some (false, digitsVal (a ++ frac.getD []), (frac.getD []).length) := by
  obtain ⟨c, t, hct, hc⟩ := numeralText_head a frac ha hne
  rw [hct, parseSigned_of_head c t hc, ← hct]
  cases frac with
  | none =>
    have hne' : a ≠ [] := by simpa using hne
    simp [numeralText, parseUnsigned_digits a ha hne']
  | some b =>
    simp only [numeralText, Option.getD_some] at hb hne ⊢
    rw [parseUnsigned_point a b ha hb hne]
    rfl

theorem numeralValue_eq (a : List Char) (frac : Option (List Char)) :
    numeralValue a frac
      = ((digitsVal (a ++ frac.getD []) : Nat) : ℚ) / ((10 ^ (frac.getD []).length : Nat) : ℚ) := by
  cases frac with
  | none => simp [numeralValue]
  | some b =>
    simp only [numeralValue, Option.getD_some, digitsVal_append]
    push_cast
    field_simp

theorem stringToNumber_numeralText (a : List Char) (frac : Option (List Char))
    (ha : ∀ c ∈ a, c.isDigit = true) (hb : ∀ c ∈ frac.getD [], c.isDigit = true)
    (hne : a ++ frac.getD [] ≠ []) :
    stringToNumber (numeralText a frac) = JSNumber.ofRat (numeralValue a frac) := by
  obtain ⟨c, t, hct, _⟩ := numeralText_head a frac ha hne
  have hnil : numeralText a frac ≠ [] := by rw [hct]; simp
  unfold stringToNumber
  rw [if_neg hnil, parseSigned_numeralText a frac ha hb hne, numeralValue_eq,
    ofRat_div _ _ (Nat.pos_pow_of_pos _ (by norm_num))]

theorem numeralValue_nonneg (a : List Char) (frac : Option (List Char)) :
    0 ≤ numeralValue a frac := by
  cases frac <;> simp only [numeralValue] <;> positivity

theorem parsePercent_percentText (a : List Char) (frac : Option (List Char))
    (w1 w2 w3 : List Char) (pct : Bool)
    (ha : ∀ c ∈ a, c.isDigit = true) (hb : ∀ c ∈ frac.getD [], c.isDigit = true)
    (hne : a ++ frac.getD [] ≠ [])
    (h1 : ∀ c ∈ w1, isWhiteSpace c = true) (h2 : ∀ c ∈ w2, isWhiteSpace c = true)
    (h3 : ∀ c ∈ w3, isWhiteSpace c = true) :
    parsePercent (percentText w1 (numeralText a frac) w2 pct w3)
      = JSNumber.ofRat (numeralValue a frac) := by
  have hs : (strip (percentText w1 (numeralText a frac) w2 pct w3)).data
      = numeralText a frac :=
    strip_percentText w1 _ w2 w3 pct (numeralText_keep a frac ha hb)
      (fun c hc => keep_false_of_isWhiteSpace c (h1 c hc))
      (fun c hc => keep_false_of_isWhiteSpace c (h2 c hc))
      (fun c hc => keep_false_of_isWhiteSpace c (h3 c hc))
  unfold parsePercent
  rw [hs]
  exact stringToNumber_numeralText a frac ha hb hne

/-! ## Lemmas on rounding to an integer -/

theorem rounding_agree (x : ℚ) (n : Int) (h1 : (n : ℚ) - 1 / 2 < x) (h2 : x < (n : ℚ) + 1 / 2) :
    Int.fract x ≠ 1 / 2 ∧ roundHalfUp x = n ∧ roundHalfAwayFromZero x = n ∧
      roundHalfEven x = n := by
  have hup : ⌊x + 1 / 2⌋ = n := by
    rw [Int.floor_eq_iff]
    constructor <;> linarith
  have hdown : ⌈x - 1 / 2⌉ = n := by
    rw [Int.ceil_eq_iff]
    constructor <;> linarith
  have hfr : Int.fract x ≠ 1 / 2 := by
    intro h
    have hx : x = (⌊x⌋ : ℚ) + 1 / 2 := by
      have := Int.floor_add_fract x
      rw [h] at this
      exact this.symm
    have a1 : ((n - 1 : Int) : ℚ) < (⌊x⌋ : ℚ) := by push_cast; linarith
    have a2 : (⌊x⌋ : ℚ) < ((n : Int) : ℚ) := by linarith
    have b1 : n - 1 < ⌊x⌋ := by exact_mod_cast a1
    have b2 : ⌊x⌋ < n := by exact_mod_cast a2
    omega
  refine ⟨hfr, hup, ?_, ?_⟩
  · unfold roundHalfAwayFromZero
    split_ifs
    · exact hup
    · exact hdown
  · unfold roundHalfEven
    rw [if_neg hfr]
    exact hup

theorem exactPercent_of_parse (s : String) (m d : Nat)
    (h : parseSigned (strip s).data = some (false, m, d)) :
    exactPercent s = some ((m : ℚ) / (10 : ℚ) ^ d) := by
  have hne : (strip s).data ≠ [] := by
    intro hnil
    rw [hnil] at h
    have h0 : parseSigned [] = none := by decide
    rw [h0] at h
    exact Option.noConfusion h
  unfold exactPercent
  rw [if_neg hne, h]
  simp

/-- The count computed by `fmtCorrect` from a Number value of a rational between
`0` and `10^15`: a natural number, rendered in decimal. -/
theorem count_of_bounded (v : ℚ) (h0 : 0 ≤ v) (hv : v ≤ 10 ^ 15) :
    ∃ (n : Nat) (y : ℚ),
      (((JSNumber.ofRat v).div (JSNumber.ofNat 100)).mul (JSNumber.ofNat 65)).toRat = some y ∧
      (n : Int) = roundHalfUp y ∧
      (mathRound (((JSNumber.ofRat v).div (JSNumber.ofNat 100)).mul
        (JSNumber.ofNat 65))).toRat = some (n : ℚ) ∧
      numberToString (mathRound (((JSNumber.ofRat v).div (JSNumber.ofNat 100)).mul
        (JSNumber.ofNat 65))) = some (String.mk (natDigits n)) := by
  have hvq : v = ((v.num.natAbs : Nat) : ℚ) / ((v.den : Nat) : ℚ) := by
    have hnum : 0 ≤ v.num := Rat.num_nonneg.mpr h0
    have : ((v.num.natAbs : Nat) : ℚ) = ((v.num : Int) : ℚ) := by
      rw [Nat.cast_natAbs, abs_of_nonneg hnum]
    rw [this]
    exact (Rat.num_div_den v).symm
  have hround : JSNumber.ofRat v = roundDouble false v.num.natAbs v.den := by
    conv_lhs => rw [hvq]
    exact ofRat_div _ _ v.den_pos
  have hb : ((v.num.natAbs : Nat) : ℚ) / ((v.den : Nat) : ℚ) ≤ (2 : ℚ) ^ (51 : Int) := by
    rw [← hvq]
    have : (10 : ℚ) ^ 15 ≤ (2 : ℚ) ^ (51 : Int) := by norm_num
    linarith
  obtain ⟨m1, e1, hx1, hb1⟩ :=
    roundDouble_le_two_zpow v.num.natAbs v.den 51 v.den_pos (by norm_num) (by norm_num) hb
  obtain ⟨m2, e2, hx2, hb2⟩ := div_hundred_le m1 e1 51 (by norm_num) (by norm_num) hb1
  obtain ⟨m3, e3, hx3, hb3⟩ := mul_total_le m2 e2 (51 - 6) (by norm_num) (by norm_num) hb2
  have hb3' : (m3 : ℚ) * (2 : ℚ) ^ e3 ≤ (2 : ℚ) ^ (52 : Int) := by
    have : ((51 : Int) - 6 + 7) = 52 := by norm_num
    rw [this] at hb3
    exact hb3
  obtain ⟨n, hn1, hn2, hn3⟩ := mathRound_render m3 e3 hb3'
  rw [hround, hx1, hx2, hx3]
  refine ⟨n, (m3 : ℚ) * (2 : ℚ) ^ e3, ?_, hn1, hn2, hn3⟩
  simp [JSNumber.toRat]

/-! ## Claims on the percent parser and the correct-count formatter -/

/-- C1: for a decimal numeral (digits with an optional single decimal point, at
least one digit) surrounded by optional white space and followed by an optional
`%`, `parsePercent` returns the Number value of the number the numeral denotes,
and the exact value it reads is that number; the smoke tests `8%`, ` 3.5 % `,
`0%`, `12` and `6.3%` give 8, 3.5, 0, 12 and 6.3. -/
theorem parsePercent_numeral :
    (∀ (a : List Char) (frac : Option (List Char)) (w1 w2 w3 : List Char) (pct : Bool),
      (∀ c ∈ a, c.isDigit = true) → (∀ c ∈ frac.getD [], c.isDigit = true) →
      a ++ frac.getD [] ≠ [] →
      (∀ c ∈ w1, isWhiteSpace c = true) → (∀ c ∈ w2, isWhiteSpace c = true) →
      (∀ c ∈ w3, isWhiteSpace c = true) →
      parsePercent (percentText w1 (numeralText a frac) w2 pct w3)
          = JSNumber.ofRat (numeralValue a frac) ∧
        exactPercent (percentText w1 (numeralText a frac) w2 pct w3)
          = some (numeralValue a frac)) ∧
    (parsePercent "8%").toRat = some 8 ∧
    (parsePercent " 3.5 % ").toRat = some (7 / 2) ∧
    (parsePercent "0%").toRat = some 0 ∧
    (parsePercent "12").toRat = some 12 ∧
    parsePercent "6.3%" = JSNumber.ofRat (63 / 10) := by
  refine ⟨?_, ?_, ?_, ?_, ?_, ?_⟩
  · intro a frac w1 w2 w3 pct ha hb hne h1 h2 h3
    refine ⟨parsePercent_percentText a frac w1 w2 w3 pct ha hb hne h1 h2 h3, ?_⟩
    have hs : (strip (percentText w1 (numeralText a frac) w2 pct w3)).data
        = numeralText a frac :=
      strip_percentText w1 _ w2 w3 pct (numeralText_keep a frac ha hb)
        (fun c hc => keep_false_of_isWhiteSpace c (h1 c hc))
        (fun c hc => keep_false_of_isWhiteSpace c (h2 c hc))
        (fun c hc => keep_false_of_isWhiteSpace c (h3 c hc))
    have hp := parseSigned_numeralText a frac ha hb hne
    rw [← hs] at hp
    rw [exactPercent_of_parse _ _ _ hp, numeralValue_eq]
    push_cast
    rfl
  · have h : parsePercent "8%" = JSNumber.fin false 4503599627370496 (-49) := by decide
    rw [h]
    simp only [JSNumber.toRat]
    norm_num
  · have h : parsePercent " 3.5 % " = JSNumber.fin false 7881299347898368 (-51) := by decide
    rw [h]
    simp only [JSNumber.toRat]
    norm_num
  · have h : parsePercent "0%" = JSNumber.fin false 0 (-1074) := by decide
    rw [h]
    simp only [JSNumber.toRat]
    norm_num
  · have h : parsePercent "12" = JSNumber.fin false 6755399441055744 (-49) := by decide
    rw [h]
    simp only [JSNumber.toRat]
    norm_num
  · have h : parsePercent "6.3%" = roundDouble false 63 10 := by decide
    have h2 := ofRat_div 63 10 (by norm_num)
    rw [h, ← h2]
    norm_num

/-- Witness of C1: the smoke test ` 3.5 % `, the numeral `3.5` between blanks
and before a percent sign. -/
theorem parsePercent_numeral_witness :
    parsePercent " 3.5 % " = JSNumber.ofRat (numeralValue ['3'] (some ['5'])) ∧
    exactPercent " 3.5 % " = some (numeralValue ['3'] (some ['5'])) :=
  parsePercent_numeral.1 ['3'] (some ['5']) [' '] [' '] [' '] true
    (by decide) (by decide) (by decide) (by decide) (by decide) (by decide)

/-- C5, as stated, fails: on the empty text and on `abc%` the stripped text is
empty, `Number("")` is `+0`, and `parsePercent` returns `0`, not NaN. -/
theorem parsePercent_nonNumeric_not_nan :
    parsePercent "" = JSNumber.zero ∧ parsePercent "" ≠ JSNumber.nan ∧
    parsePercent "abc%" = JSNumber.zero ∧ parsePercent "abc%" ≠ JSNumber.nan := by
  decide

/-- C5 amended: on every text with no digit, dot or minus character
`parsePercent` returns `+0`; being a total function it raises no error. -/
theorem parsePercent_nonNumeric (s : String) (h : ∀ c ∈ s.data, keep c = false) :
    parsePercent s = JSNumber.zero := by
  unfold parsePercent strip
  rw [keep_filter_of_not_keep _ h]
  rfl

/-- Witness of C5 amended: the text `abc%`. -/
theorem parsePercent_nonNumeric_witness :
    (∀ c ∈ "abc%".data, keep c = false) ∧ parsePercent "abc%" = JSNumber.zero :=
  ⟨by decide, parsePercent_nonNumeric "abc%" (by decide)⟩

set_option maxRecDepth 100000 in
/-- C9: for every record of the table the exact value
`parsePercent(accuracy) / 100 * 65` has a fractional part other than `1/2`;
rounding it half away from zero, half up or half to even gives the same count,
and that count is the one stored in the record's `correct` field. -/
theorem rows_no_rounding_tie :
    ∀ r ∈ rows, ∃ x : ℚ, exactPercent r.accuracy = some x ∧
      Int.fract (x / 100 * 65) ≠ 1 / 2 ∧
      roundHalfAwayFromZero (x / 100 * 65) = roundHalfUp (x / 100 * 65) ∧
      roundHalfEven (x / 100 * 65) = roundHalfUp (x / 100 * 65) ∧
      r.correct = some (String.mk (natDigits (roundHalfUp (x / 100 * 65)).toNat) ++ " / 65") := by
  have key : ∀ (s : String) (m d : Nat) (n : Int),
      parseSigned (strip s).data = some (false, m, d) →
      (n : ℚ) - 1 / 2 < (m : ℚ) / (10 : ℚ) ^ d / 100 * 65 →
      (m : ℚ) / (10 : ℚ) ^ d / 100 * 65 < (n : ℚ) + 1 / 2 →
      fmtCorrect s = some (String.mk (natDigits n.toNat) ++ " / 65") →
      ∃ x : ℚ, exactPercent s = some x ∧
        Int.fract (x / 100 * 65) ≠ 1 / 2 ∧
        roundHalfAwayFromZero (x / 100 * 65) = roundHalfUp (x / 100 * 65) ∧
        roundHalfEven (x / 100 * 65) = roundHalfUp (x / 100 * 65) ∧
        fmtCorrect s
          = some (String.mk (natDigits (roundHalfUp (x / 100 * 65)).toNat) ++ " / 65") := by
    intro s m d n hp h1 h2 hc
    obtain ⟨a, b, c, e⟩ := rounding_agree _ n h1 h2
    exact ⟨_, exactPercent_of_parse s m d hp, a, by rw [b, c], by rw [b, e], by rw [b]; exact hc⟩
  intro r hr
  simp only [rows, List.mem_cons, List.mem_singleton, List.not_mem_nil, or_false] at hr
  rcases hr with h | h | h | h | h | h | h | h | h | h <;> subst h
  · exact key "6.3%" 63 1 4 (by decide) (by norm_num) (by norm_num) (by decide)
  · exact key "4.8%" 48 1 3 (by decide) (by norm_num) (by norm_num) (by decide)
  · exact key "2.2%" 22 1 1 (by decide) (by norm_num) (by norm_num) (by decide)
  · exact key "1.5%" 15 1 1 (by decide) (by norm_num) (by norm_num) (by decide)
  · exact key "1.3%" 13 1 1 (by decide) (by norm_num) (by norm_num) (by decide)
  · exact key "1.3%" 13 1 1 (by decide) (by norm_num) (by norm_num) (by decide)
  · exact key "1.1%" 11 1 1 (by decide) (by norm_num) (by norm_num) (by decide)
  · exact key "0.6%" 6 1 0 (by decide) (by norm_num) (by norm_num) (by decide)
  · exact key "0.6%" 6 1 0 (by decide) (by norm_num) (by norm_num) (by decide)
  · exact key "0.0%" 0 1 0 (by decide) (by norm_num) (by norm_num) (by decide)

set_option maxRecDepth 100000 in
/-- Witness of C9: the first record of the table, `6.3%`, whose exact count
`4.095` is not a tie. -/
theorem rows_no_rounding_tie_witness :
    ∃ x : ℚ, exactPercent "6.3%" = some x ∧
      Int.fract (x / 100 * 65) ≠ 1 / 2 ∧
      roundHalfAwayFromZero (x / 100 * 65) = roundHalfUp (x / 100 * 65) ∧
      roundHalfEven (x / 100 * 65) = roundHalfUp (x / 100 * 65) ∧
      fmtCorrect "6.3%"
        = some (String.mk (natDigits (roundHalfUp (x / 100 * 65)).toNat) ++ " / 65") :=
  rows_no_rounding_tie
    { model := "GPT5 (high)", accuracy := "6.3%", correct := fmtCorrect "6.3%", cost := "TBD",
      access := "TBD", icon := "o" }
    (by unfold rows; exact List.mem_cons_self _ _)

set_option maxRecDepth 100000 in
/-- C4: for a well-formed percentage string, `fmtCorrect` is the rendering of
`n = Math.round(parsePercent(pct) / 100 * 65)` followed by ` / 65`, where
`parsePercent(pct)` is the Number the numeral denotes; when the percentage is at
most `10^15` the count `n` is a natural number, the product rounded half up, and
it is written in decimal; every record of the table stores `fmtCorrect` of its
own accuracy string; and `6.3%`, `2.2%`, `0.0%` give `4 / 65`, `1 / 65`,
`0 / 65`. -/
theorem fmtCorrect_spec :
    (∀ (a : List Char) (frac : Option (List Char)) (w1 w2 w3 : List Char) (pct : Bool),
      (∀ c ∈ a, c.isDigit = true) → (∀ c ∈ frac.getD [], c.isDigit = true) →
      a ++ frac.getD [] ≠ [] →
      (∀ c ∈ w1, isWhiteSpace c = true) → (∀ c ∈ w2, isWhiteSpace c = true) →
      (∀ c ∈ w3, isWhiteSpace c = true) →
      fmtCorrect (percentText w1 (numeralText a frac) w2 pct w3)
          = (numberToString (mathRound
              (((JSNumber.ofRat (numeralValue a frac)).div (JSNumber.ofNat 100)).mul
                (JSNumber.ofNat 65)))).map (fun n => n ++ " / 65") ∧
        (numeralValue a frac ≤ 10 ^ 15 →
          ∃ (n : Nat) (y : ℚ),
            (((parsePercent (percentText w1 (numeralText a frac) w2 pct w3)).div
              (JSNumber.ofNat 100)).mul (JSNumber.ofNat 65)).toRat = some y ∧
            (n : Int) = roundHalfUp y ∧
            fmtCorrect (percentText w1 (numeralText a frac) w2 pct w3)
              = some (String.mk (natDigits n) ++ " / 65"))) ∧
    (∀ r ∈ rows, r.correct = fmtCorrect r.accuracy) ∧
    fmtCorrect "6.3%" = some "4 / 65" ∧
    fmtCorrect "2.2%" = some "1 / 65" ∧
    fmtCorrect "0.0%" = some "0 / 65" := by
  refine ⟨?_, by decide, by decide, by decide, by decide⟩
  intro a frac w1 w2 w3 pct ha hb hne h1 h2 h3
  have hp := parsePercent_percentText a frac w1 w2 w3 pct ha hb hne h1 h2 h3
  have h65 : numberToString (JSNumber.ofNat 65) = some "65" := by decide
  have hfmt : ∀ o : Option String,
      (o.bind fun count => (some "65").map fun total => count ++ " / " ++ total)
        = o.map (fun n => n ++ " / 65") := by
    intro o
    cases o with
    | none => rfl
    | some n =>
      show some (n ++ " / " ++ "65") = some (n ++ " / 65")
      rw [String.append_assoc]
      rfl
  have hgen : fmtCorrect (percentText w1 (numeralText a frac) w2 pct w3)
      = (numberToString (mathRound
          (((JSNumber.ofRat (numeralValue a frac)).div (JSNumber.ofNat 100)).mul
            (JSNumber.ofNat 65)))).map (fun n => n ++ " / 65") := by
    unfold fmtCorrect
    simp only [TOTAL]
    rw [hp, h65]
    exact hfmt _
  refine ⟨hgen, ?_⟩
  intro hle
  obtain ⟨n, y, hy, hn, _, hs⟩ :=
    count_of_bounded (numeralValue a frac) (numeralValue_nonneg a frac) hle
  refine ⟨n, y, by rw [hp]; exact hy, hn, ?_⟩
  rw [hgen, hs]
  rfl

set_option maxRecDepth 100000 in
/-- Witness of C4: the record `Deepseek R1`, `2.2%`, a percentage below `10^15`. -/
theorem fmtCorrect_spec_witness :
    numeralValue ['2'] (some ['2']) ≤ 10 ^ 15 ∧
    ∃ (n : Nat) (y : ℚ),
      (((parsePercent (percentText [] (numeralText ['2'] (some ['2'])) [] true [])).div
        (JSNumber.ofNat 100)).mul (JSNumber.ofNat 65)).toRat = some y ∧
      (n : Int) = roundHalfUp y ∧
      fmtCorrect (percentText [] (numeralText ['2'] (some ['2'])) [] true [])
        = some (String.mk (natDigits n) ++ " / 65") :=
  have hle : numeralValue ['2'] (some ['2']) ≤ 10 ^ 15 := by
    have hd : digitsVal ['2'] = 2 := by decide
    simp only [numeralValue, hd, List.length]
    norm_num
  ⟨hle, (fmtCorrect_spec.1 ['2'] (some ['2']) [] [] [] true
    (by decide) (by decide) (by decide) (by decide) (by decide) (by decide)).2 hle⟩

/-! ## Claims on the chart adapter, the tick formatter and the icon glyph -/

/-- C2: `buildChartData(rows, palette)` has the length of `rows`, and at every
index its entry carries `rows[i].model` and `parsePercent(rows[i].accuracy)`:
order is kept, nothing is sorted, dropped or duplicated. -/
theorem buildChartData_preserves (rows : List Record) (palette : List String) :
    (buildChartData rows palette).length = rows.length ∧
    (∀ i : Nat, ((buildChartData rows palette)[i]?).map (fun pt => pt.model)
        = (rows[i]?).map (fun r => r.model)) ∧
    (∀ i : Nat, ((buildChartData rows palette)[i]?).map (fun pt => pt.accuracy)
        = (rows[i]?).map (fun r => parsePercent r.accuracy)) := by
  refine ⟨length_mapWithIndex _ _ _, ?_, ?_⟩
  · intro i
    rw [getElem?_buildChartData]
    cases rows[i]? <;> simp [chartPoint]
  · intro i
    rw [getElem?_buildChartData]
    cases rows[i]? <;> simp [chartPoint]

/-- C3: with a palette of size `P ≥ 1`, the entry of `buildChartData(rows, palette)`
at index `i` has fill `palette[i mod P]`, which is a colour of the palette; when
the two lengths agree the fills are the palette in order. -/
theorem buildChartData_fill_cyclic (rows : List Record) (palette : List String)
    (hp : 0 < palette.length) :
    (∀ i : Nat, i < rows.length →
      ((buildChartData rows palette)[i]?).map (fun pt => pt.fill)
        = some (palette[i % palette.length]?)) ∧
    (∀ i : Nat, ∃ c, palette[i % palette.length]? = some c) ∧
    (∀ i : Nat, i + palette.length < rows.length →
      ((buildChartData rows palette)[i + palette.length]?).map (fun pt => pt.fill)
        = ((buildChartData rows palette)[i]?).map (fun pt => pt.fill)) ∧
    (rows.length = palette.length →
      (buildChartData rows palette).map (fun pt => pt.fill) = palette.map some) := by
  have hne : palette.length ≠ 0 := by omega
  have hfill : ∀ i : Nat, i < rows.length →
      ((buildChartData rows palette)[i]?).map (fun pt => pt.fill)
        = some (palette[i % palette.length]?) := by
    intro i hi
    rw [getElem?_buildChartData, List.getElem?_eq_getElem hi]
    simp [chartPoint, jsIndex, jsMod, hne]
  refine ⟨hfill, ?_, ?_, ?_⟩
  · intro i
    exact ⟨_, List.getElem?_eq_getElem (Nat.mod_lt i hp)⟩
  · intro i hi
    rw [hfill (i + palette.length) hi, hfill i (by omega), Nat.add_mod_right]
  · intro hlen
    apply List.ext_getElem?
    intro i
    rw [List.getElem?_map, List.getElem?_map]
    by_cases hi : i < rows.length
    · rw [hfill i hi, Nat.mod_eq_of_lt (hlen ▸ hi)]
      rw [List.getElem?_eq_getElem (hlen ▸ hi)]
      rfl
    · have h1 : (buildChartData rows palette).length ≤ i := by
        rw [buildChartData, length_mapWithIndex]; omega
      have h2 : palette.length ≤ i := by omega
      rw [List.getElem?_eq_none h1, List.getElem?_eq_none h2]
      rfl

/-- Witness of C3: the smoke test `t6`, two records and the palette `#111`, `#222`. -/
theorem buildChartData_fill_cyclic_witness :
    0 < ["#111", "#222"].length ∧
    (buildChartData [⟨"a", "8%"⟩, ⟨"b", "4%"⟩] ["#111", "#222"]).map (fun pt => pt.fill)
      = [some "#111", some "#222"] :=
  ⟨by decide,
   (buildChartData_fill_cyclic [⟨"a", "8%"⟩, ⟨"b", "4%"⟩] ["#111", "#222"] (by decide)).2.2.2 rfl⟩

theorem unitsOf_bmp (cs : List Char) (h : ∀ c ∈ cs, c.toNat < 0x10000) :
    unitsOf cs = cs.map Char.toNat := by
  induction cs with
  | nil => rfl
  | cons c cs ih =>
    have hc : c.toNat < 0x10000 := h c (List.mem_cons_self _ _)
    have ht : ∀ x ∈ cs, x.toNat < 0x10000 := fun x hx => h x (List.mem_cons_of_mem _ hx)
    simp only [unitsOf, utf16Units, if_pos hc, ih ht, List.map_cons, List.singleton_append]

theorem length_unitsOf_bmp (cs : List Char) (h : ∀ c ∈ cs, c.toNat < 0x10000) :
    (unitsOf cs).length = cs.length := by
  rw [unitsOf_bmp cs h, List.length_map]

/-- C6: the x-axis tick formatter returns a label of length at most 14 unchanged
and otherwise its first 14 characters followed by the single ellipsis character;
the result has at most 15 characters and starts with the first `min 14 length`
characters of the label.  Lengths and characters are counted as `v.length` and
`v.slice` count them, in UTF-16 code units; on a label of the Basic Multilingual
Plane these are its characters, and a label of eight characters outside that
plane, sixteen code units, is cut after the seventh. -/
theorem tickFormatter_spec :
    (∀ v : List Nat,
      (v.length ≤ 14 → tickFormatter v = v) ∧
      (14 < v.length → tickFormatter v = v.take 14 ++ [0x2026]) ∧
      (tickFormatter v).length ≤ 15 ∧
      v.take (min 14 v.length) <+: tickFormatter v) ∧
    (∀ s : String, (∀ c ∈ s.data, c.toNat < 0x10000) →
      (toUTF16 s).length = s.length ∧
      (s.length ≤ 14 → tickFormatter (toUTF16 s) = toUTF16 s) ∧
      (14 < s.length →
        tickFormatter (toUTF16 s) = toUTF16 (String.mk (s.data.take 14 ++ ['…'])))) ∧
    tickFormatter (toUTF16 (String.mk (List.replicate 8 (Char.ofNat 0x1F600))))
      = toUTF16 (String.mk (List.replicate 7 (Char.ofNat 0x1F600) ++ ['…'])) := by
  have hunits : ∀ v : List Nat,
      (v.length ≤ 14 → tickFormatter v = v) ∧
      (14 < v.length → tickFormatter v = v.take 14 ++ [0x2026]) ∧
      (tickFormatter v).length ≤ 15 ∧
      v.take (min 14 v.length) <+: tickFormatter v := by
    intro v
    unfold tickFormatter
    by_cases h : v.length > 14
    · rw [if_pos h]
      refine ⟨fun h1 => by omega, fun _ => rfl, ?_, ?_⟩
      · rw [List.length_append, List.length_take]
        simp only [List.length_singleton]
        omega
      · have hmin : min 14 v.length = 14 := by omega
        rw [hmin]
        exact List.prefix_append _ _
    · rw [if_neg h]
      refine ⟨fun _ => rfl, fun h1 => by omega, by omega, ?_⟩
      have hmin : min 14 v.length = v.length := by omega
      rw [hmin, List.take_length]
  refine ⟨hunits, ?_, by decide⟩
  intro s hbmp
  have hlen : (toUTF16 s).length = s.length := length_unitsOf_bmp s.data hbmp
  refine ⟨hlen, fun h => (hunits (toUTF16 s)).1 (by omega), ?_⟩
  intro h
  rw [(hunits (toUTF16 s)).2.1 (by omega)]
  have hbmp2 : ∀ c ∈ s.data.take 14 ++ ['…'], c.toNat < 0x10000 := by
    intro c hc
    rcases List.mem_append.mp hc with h1 | h1
    · exact hbmp c (List.mem_of_mem_take h1)
    · rw [List.mem_singleton.mp h1]; decide
  show List.take 14 (unitsOf s.data) ++ [0x2026] = unitsOf (s.data.take 14 ++ ['…'])
  rw [unitsOf_bmp _ hbmp, unitsOf_bmp _ hbmp2, List.map_append, List.map_take]
  rfl

/-- Witness of C6: a 16-character label of the table is cut after 14 characters. -/
theorem tickFormatter_spec_witness :
    (∀ c ∈ "Gemini-2.5 Flash".data, c.toNat < 0x10000) ∧
    14 < "Gemini-2.5 Flash".length ∧
    tickFormatter (toUTF16 "Gemini-2.5 Flash") = toUTF16 "Gemini-2.5 Fla…" :=
  ⟨by decide, by decide,
   (tickFormatter_spec.2.1 "Gemini-2.5 Flash" (by decide)).2.2 (by decide)⟩

/-- C7: the icon glyph is `G` for the key `g`, `D` for `ds`, `L` for `llama` and
`O` for every other key; it is always one of the four letters. -/
theorem iconGlyph_spec (k : String) :
    (k = "g" → iconGlyph k = "G") ∧
    (k = "ds" → iconGlyph k = "D") ∧
    (k = "llama" → iconGlyph k = "L") ∧
    (k ≠ "g" → k ≠ "ds" → k ≠ "llama" → iconGlyph k = "O") ∧
    iconGlyph k ∈ ["G", "D", "L", "O"] := by
  refine ⟨?_, ?_, ?_, ?_, ?_⟩
  · intro h; subst h; decide
  · intro h; subst h; decide
  · intro h; subst h; decide
  · intro h1 h2 h3; simp [iconGlyph, h1, h2, h3]
  · unfold iconGlyph
    split_ifs <;> simp

/-- Witness of C7: the key `o` is none of the three named keys and gives `O`. -/
theorem iconGlyph_spec_witness :
    "o" ≠ "g" ∧ "o" ≠ "ds" ∧ "o" ≠ "llama" ∧ iconGlyph "o" = "O" :=
  ⟨by decide, by decide, by decide,
   (iconGlyph_spec "o").2.2.2.1 (by decide) (by decide) (by decide)⟩

/-- C8, as stated, fails: the record `Claude Opus 4` of the table has the icon
key `c`, which is none of `o`, `g`, `ds`, `llama`. -/
theorem rows_icon_not_in_enum :
    ∃ r ∈ rows, r.model = "Claude Opus 4" ∧ r.icon = "c" ∧
      r.icon ∉ ["o", "g", "ds", "llama"] := by
  refine ⟨{ model := "Claude Opus 4", accuracy := "1.3%", correct := fmtCorrect "1.3%",
            cost := "TBD", access := "TBD", icon := "c" }, ?_, rfl, rfl, by decide⟩
  simp [rows]

/-- C8 amended: every record of the table has an icon key among `o`, `g`, `ds`,
`llama` and `c`, and the key `c` is used by the record `Claude Opus 4` only. -/
theorem rows_icon_keys :
    (∀ r ∈ rows, r.icon ∈ ["o", "g", "ds", "llama", "c"]) ∧
    (∀ r ∈ rows, r.icon = "c" ↔ r.model = "Claude Opus 4") := by
  constructor <;> simp [rows]

/-- Witness of C8 amended: the record `Claude Opus 4` and its key `c`. -/
theorem rows_icon_keys_witness :
    (⟨"Claude Opus 4", "1.3%", fmtCorrect "1.3%", "TBD", "TBD", "c"⟩ : Row) ∈ rows ∧
    "c" ∈ ["o", "g", "ds", "llama", "c"] :=
  have hmem : (⟨"Claude Opus 4", "1.3%", fmtCorrect "1.3%", "TBD", "TBD", "c"⟩ : Row) ∈ rows := by
    simp [rows]
  ⟨hmem, rows_icon_keys.1 _ hmem⟩

/-- C10, as stated, fails: with an empty palette and one record, `buildChartData`
returns a chart point whose fill is missing instead of stopping with an error. -/
theorem buildChartData_empty_palette_no_error :
    buildChartData [⟨"m", "10%"⟩] []
      = [{ model := "m", accuracy := parsePercent "10%", fill := none }] := by
  rfl

/-- C10 amended: with an empty palette `buildChartData` still returns one entry
per record, with model and accuracy as usual, and every fill is missing
(`i % 0` is NaN and `palette[NaN]` is `undefined`). -/
theorem buildChartData_empty_palette (rows : List Record) :
    (buildChartData rows []).length = rows.length ∧
    (∀ i : Nat, (buildChartData rows [])[i]?
      = (rows[i]?).map fun r =>
          { model := r.model, accuracy := parsePercent r.accuracy, fill := none }) ∧
    (∀ pt ∈ buildChartData rows [], pt.fill = none) := by
  have hget : ∀ i : Nat, (buildChartData rows [])[i]?
      = (rows[i]?).map fun r =>
          ({ model := r.model, accuracy := parsePercent r.accuracy, fill := none } : ChartPoint) := by
    intro i
    rw [getElem?_buildChartData]
    cases rows[i]? <;> simp [chartPoint, jsIndex, jsMod]
  refine ⟨length_mapWithIndex _ _ _, hget, ?_⟩
  intro pt hpt
  obtain ⟨i, hi⟩ := List.getElem?_of_mem hpt
  rw [hget i] at hi
  cases hr : rows[i]? with
  | none => simp [hr] at hi
  | some r =>
    simp [hr] at hi
    rw [← hi]

/-- Witness of C10 amended: one record and the empty palette. -/
theorem buildChartData_empty_palette_witness :
    ({ model := "m", accuracy := parsePercent "10%", fill := none } : ChartPoint)
        ∈ buildChartData [⟨"m", "10%"⟩] [] ∧
    ({ model := "m", accuracy := parsePercent "10%", fill := none } : ChartPoint).fill = none :=
  have hmem : ({ model := "m", accuracy := parsePercent "10%", fill := none } : ChartPoint)
      ∈ buildChartData [⟨"m", "10%"⟩] [] := List.mem_singleton.mpr rfl
  ⟨hmem, (buildChartData_empty_palette [⟨"m", "10%"⟩]).2.2 _ hmem⟩

end CritPt
